import Mathlib

/-!
Verification development for the libsession-util state management and merge
engine (`include/session/state.h`, `src/config/internal.hpp`).

The public header and `internal.hpp` declare the state/merge API; the bodies of
the merge engine, codec and compressor are not part of the two source files, so
those operations are modelled from the specification (each such definition says
so in its doc comment).  The three functions whose bodies do appear in
`internal.hpp` (`copy_c_str`, `set_pair_if`, `c_wrapper_init_generic`) are
embedded directly from the source.
-/

namespace SessionState

/-- Document field values.  Per the spec the merge core treats each payload as
an opaque structured document with named fields; the engine below never
inspects a value, so scalar constructors suffice for the embedding. -/
inductive Value where
  | str (s : String)
  | int (i : Int)
  | bytes (b : List Nat)
  deriving DecidableEq, Repr

/-- A document field entry: the value together with the merge priority of the
message that wrote it (`timestamp_ms`, tie-broken by the message `hash`). -/
structure Entry where
  val : Value
  ts : Nat
  hash : String
  deriving DecidableEq, Repr

/-- Byte-wise lexicographic order on character lists (the canonical key order
of the binary codec). -/
def charsLt : List Char → List Char → Bool
  | [], [] => false
  | [], _ :: _ => true
  | _ :: _, [] => false
  | a :: as, b :: bs => if a < b then true else if b < a then false else charsLt as bs

/-- Lexicographic order on keys and hashes. -/
def keyLt (a b : String) : Bool := charsLt a.data b.data

/-- Modelled from the spec: merge priority order — higher `timestamp_ms` wins,
ties broken by comparing `hash` lexicographically (larger hash wins), giving a
deterministic total order on distinct messages. -/
def prioGt (a b : Entry) : Bool :=
  b.ts < a.ts || (b.ts == a.ts && keyLt b.hash a.hash)

/-- Modelled from the spec: keep the higher-priority value for a field. -/
def resolve (cur new : Entry) : Entry :=
  if prioGt new cur then new else cur

/-- Entries whose (timestamp, hash) priorities differ. -/
def prioNe (a b : Entry) : Prop := ¬ (a.ts = b.ts ∧ a.hash = b.hash)

/-- Insert a field into a key-ordered association list, resolving an existing
entry for the same key by merge priority. -/
def docInsert (k : String) (e : Entry) : List (String × Entry) → List (String × Entry)
  | [] => [(k, e)]
  | (k2, e2) :: rest =>
      if keyLt k k2 then (k, e) :: (k2, e2) :: rest
      else if k = k2 then (k2, resolve e2 e) :: rest
      else (k2, e2) :: docInsert k e rest

/-- Look a field up by key. -/
def docLookup (k : String) : List (String × Entry) → Option Entry
  | [] => none
  | (k2, e2) :: rest => if k = k2 then some e2 else docLookup k rest

/-- Unconditional overwrite of a field (local setter path, DictFieldProxy
assignment). -/
def docPut (k : String) (e : Entry) : List (String × Entry) → List (String × Entry)
  | [] => [(k, e)]
  | (k2, e2) :: rest =>
      if keyLt k k2 then (k, e) :: (k2, e2) :: rest
      else if k = k2 then (k2, e) :: rest
      else (k2, e2) :: docPut k e rest

/-- Remove a field (DictFieldProxy `erase`). -/
def docErase (k : String) : List (String × Entry) → List (String × Entry)
  | [] => []
  | kv :: rest => if kv.1 = k then docErase k rest else kv :: docErase k rest

/-- Modelled from the spec: a `ConfigDocument` is an ordered mapping from field
name to value plus an explicit bucket for unknown fields that must be preserved
verbatim across merge/dump/load cycles. -/
structure ConfigDocument where
  fields : List (String × Entry)
  unknown : List (String × Entry)
  deriving DecidableEq, Repr

/-- Modelled from the spec: a config message — hash (idempotency key),
timestamp, and payload.  The payload decode step of `BinaryCodec` is abstracted
as the decode result carried with the message: `none` models a payload that
fails to decode. -/
structure ConfigMessage where
  hash : String
  timestamp_ms : Nat
  data : Option (List (String × Value))
  deriving DecidableEq, Repr

/-- Modelled from the spec: a `ConfigState` holds the current merged document,
the set of already-applied message hashes, and the dirty flag. -/
structure ConfigState where
  document : ConfigDocument
  applied_hashes : List String
  needs_dump : Bool
  deriving DecidableEq, Repr

/-- A freshly constructed state: empty document, no applied hashes, clean. -/
def freshState : ConfigState :=
  { document := { fields := [], unknown := [] }, applied_hashes := [], needs_dump := false }

/-- Sorted duplicate-free insertion into the applied-hash set. -/
def hinsert (h : String) : List String → List String
  | [] => [h]
  | h2 :: rest =>
      if keyLt h h2 then h :: h2 :: rest
      else if h = h2 then h2 :: rest
      else h2 :: hinsert h rest

/-- Modelled from the spec: fold one fragment field into the document —
recognized keys go to `fields`, unrecognized ones to the `unknown` bucket,
both under the same timestamp/hash tie-break. -/
def mergeField (recognized : String → Bool) (k : String) (e : Entry) (d : ConfigDocument) :
    ConfigDocument :=
  if recognized k then { d with fields := docInsert k e d.fields }
  else { d with unknown := docInsert k e d.unknown }

/-- Look up a field of the document (routing by recognized key, mirroring the
split into recognized fields and the unknown bucket). -/
def docGet (recognized : String → Bool) (k : String) (d : ConfigDocument) : Option Entry :=
  if recognized k then docLookup k d.fields else docLookup k d.unknown

/-- Fold a whole decoded fragment into the document with the priority of the
carrying message. -/
def applyFrag (recognized : String → Bool) (ts : Nat) (h : String)
    (frag : List (String × Value)) (d : ConfigDocument) : ConfigDocument :=
  frag.foldl (fun d f => mergeField recognized f.1 ⟨f.2, ts, h⟩ d) d

/-- Modelled from the spec (`state_merge`, §4.4): merge a single message —
skip if the hash was already applied; skip (without recording the hash) if the
payload fails to decode; otherwise fold the fragment in, record the hash and
set the dirty flag.  Returns the newly accepted hash, if any. -/
def mergeOne (recognized : String → Bool) (st : ConfigState) (m : ConfigMessage) :
    ConfigState × Option String :=
  if m.hash ∈ st.applied_hashes then (st, none)
  else
    match m.data with
    | none => (st, none)
    | some frag =>
        ({ document := applyFrag recognized m.timestamp_ms m.hash frag st.document,
           applied_hashes := hinsert m.hash st.applied_hashes,
           needs_dump := true }, some m.hash)

/-- Modelled from the spec: merge a batch of messages, returning the final
state and the list of newly accepted hashes.  Per-message decode failures are
skipped; the batch itself never fails (there is no error result). -/
def mergeMsgs (recognized : String → Bool) (st : ConfigState) :
    List ConfigMessage → ConfigState × List String
  | [] => (st, [])
  | m :: rest =>
      let r1 := mergeOne recognized st m
      let r2 := mergeMsgs recognized r1.1 rest
      (r2.1, r1.2.toList ++ r2.2)

/-- The state after merging one message (accepted-hash output discarded). -/
def step (recognized : String → Bool) (st : ConfigState) (m : ConfigMessage) : ConfigState :=
  (mergeOne recognized st m).1

/-- The state after folding a whole list of messages (batching-free view of a
merge; `mergeMsgs` produces exactly this state). -/
def mergeState (r : String → Bool) (s : ConfigState) (l : List ConfigMessage) : ConfigState :=
  l.foldl (step r) s

/-- Hashes identify messages: the data-model assumption that `hash` is an
opaque content identifier (two messages with the same hash are the same
message). -/
def HashInj (l : List ConfigMessage) : Prop :=
  ∀ x ∈ l, ∀ y ∈ l, x.hash = y.hash → x = y

/-- Folding a list of batches through `mergeMsgs` (merge called repeatedly,
one batch at a time). -/
def mergeBatches (r : String → Bool) (s : ConfigState) (batches : List (List ConfigMessage)) :
    ConfigState :=
  batches.foldl (fun st batch => (mergeMsgs r st batch).1) s

/-- Modelled from the spec (`append_unknown`, BinaryCodec §4.1): the dump of a
document is the canonically key-ordered sequence of all its fields, with the
unknown-bucket entries streamed in at their key positions between the
recognized fields.  The byte-level encoding of this sequence by `BinaryCodec`
is abstracted as lossless and canonical. -/
def dumpDoc (d : ConfigDocument) : List (String × Entry) :=
  d.unknown.foldl (fun acc kv => docPut kv.1 kv.2 acc) d.fields

/-- Modelled from the spec (`load_unknowns`): loading splits the flat dumped
sequence back into the recognized fields and the unknown passthrough bucket. -/
def loadDoc (recognized : String → Bool) (l : List (String × Entry)) : ConfigDocument :=
  { fields := l.filter (fun kv => recognized kv.1),
    unknown := l.filter (fun kv => !recognized kv.1) }

/-- The representation invariant of a document: both buckets key-sorted, and
entries routed by the recognized-key predicate. -/
def DocWF (recognized : String → Bool) (d : ConfigDocument) : Prop :=
  List.Pairwise (fun a b => keyLt a.1 b.1 = true) d.fields ∧
  List.Pairwise (fun a b => keyLt a.1 b.1 = true) d.unknown ∧
  (∀ kv ∈ d.fields, recognized kv.1 = true) ∧
  (∀ kv ∈ d.unknown, recognized kv.1 = false)

/-- Modelled from the spec: `dump` returns the encoded document and clears the
dirty flag; `applied_hashes` is untouched. -/
def stateDump (s : ConfigState) : List (String × Entry) × ConfigState :=
  (dumpDoc s.document, { s with needs_dump := false })

/-- Modelled from the spec: `load` rebuilds the document from a dump; a
freshly constructed state loading a dump starts with an empty applied-hash
set. -/
def stateLoad (recognized : String → Bool) (dump : List (String × Entry)) : ConfigState :=
  { document := loadDoc recognized dump, applied_hashes := [], needs_dump := false }

/-- Modelled from the spec: the `StateStore` owns one `ConfigState` per
(namespace, account) pair. -/
structure StateStore where
  states : List ((Nat × String) × ConfigState)
  deriving DecidableEq

/-- Find the state for a (namespace, account) pair. -/
def lookupState (ns : Nat) (acct : String) :
    List ((Nat × String) × ConfigState) → Option ConfigState
  | [] => none
  | p :: rest => if p.1.1 == ns && p.1.2 == acct then some p.2 else lookupState ns acct rest

def storeGet (ns : Nat) (acct : String) (store : StateStore) : Option ConfigState :=
  lookupState ns acct store.states

/-- Clear the dirty flag of every state matched by `f`. -/
def clearFlags (f : ((Nat × String) × ConfigState) → Bool)
    (states : List ((Nat × String) × ConfigState)) : List ((Nat × String) × ConfigState) :=
  states.map (fun p => if f p then (p.1, { p.2 with needs_dump := false }) else p)

/-- Modelled from the spec (`state_dump_namespace`): single-state dump; clears
the dirty flag of that state and of nothing else; `applied_hashes` is left
alone. -/
def state_dump_namespace (ns : Nat) (acct : String) (store : StateStore) :
    Option (List (String × Entry)) × StateStore :=
  ((storeGet ns acct store).map (fun st => dumpDoc st.document),
   { states := clearFlags (fun p => p.1.1 == ns && p.1.2 == acct) store.states })

/-- Modelled from the spec (`state_dump`): dumps every state (or, when `full`
is false, only the dirty ones) and clears the dirty flag of each included
state. -/
def state_dump (full : Bool) (store : StateStore) :
    List ((Nat × String) × List (String × Entry)) × StateStore :=
  (store.states.filterMap (fun p =>
      if full || p.2.needs_dump then some (p.1, dumpDoc p.2.document) else none),
   { states := clearFlags (fun p => full || p.2.needs_dump) store.states })

/-! ### Typed accessors (thin views over well-known document keys) -/

def PROFILE_NAME_KEY : String := "n"
def PROFILE_PIC_URL_KEY : String := "p"
def PROFILE_PIC_KEY_KEY : String := "q"
def BLINDED_MSGREQS_KEY : String := "+"

/-- Local setter path (DictFieldProxy assignment): overwrite the field and
mark the state dirty. -/
def localPut (k : String) (v : Value) (s : ConfigState) : ConfigState :=
  { s with document := { s.document with fields := docPut k ⟨v, 0, ""⟩ s.document.fields },
           needs_dump := true }

/-- Local erase path (DictFieldProxy `erase`). -/
def localErase (k : String) (s : ConfigState) : ConfigState :=
  { s with document := { s.document with fields := docErase k s.document.fields },
           needs_dump := true }

/-- Modelled from the spec (state.h `state_set_profile_blinded_msgreqs` doc):
any positive value stores an explicit 1, zero stores an explicit 0, and a
negative value clears the setting. -/
def state_set_profile_blinded_msgreqs (s : ConfigState) (enabled : Int) : ConfigState :=
  if enabled < 0 then localErase BLINDED_MSGREQS_KEY s
  else localPut BLINDED_MSGREQS_KEY (Value.int (if 0 < enabled then 1 else 0)) s

/-- Modelled from the spec (state.h `state_get_profile_blinded_msgreqs` doc):
tri-state read — absent (or non-integer) reads as unset (-1), an explicit 0 as
0, anything else as 1. -/
def state_get_profile_blinded_msgreqs (s : ConfigState) : Int :=
  match docLookup BLINDED_MSGREQS_KEY s.document.fields with
  | some e =>
      match e.val with
      | Value.int i => if i = 0 then 0 else 1
      | _ => -1
  | none => -1

/-- Modelled from the spec: profile-name accessor, a typed view of the
profile-name key. -/
def state_get_profile_name (recognized : String → Bool) (s : ConfigState) : Option String :=
  match docGet recognized PROFILE_NAME_KEY s.document with
  | some e =>
      match e.val with
      | Value.str x => some x
      | _ => none
  | none => none

/-- Embedded from `internal.hpp` `set_pair_if`: sets both fields when the
condition holds, erases both otherwise (`f1` assigned before `f2`). -/
def set_pair_if (cond : Bool) (k1 : String) (v1 : Value) (k2 : String) (v2 : Value)
    (f : List (String × Entry)) : List (String × Entry) :=
  if cond then docPut k2 ⟨v2, 0, ""⟩ (docPut k1 ⟨v1, 0, ""⟩ f)
  else docErase k2 (docErase k1 f)

/-- Modelled from the spec: the profile-picture setter stores url and key via
`set_pair_if` — both when a usable picture is supplied, neither otherwise. -/
def state_set_profile_pic (s : ConfigState) (url : String) (key : List Nat) : ConfigState :=
  let newFields :=
    set_pair_if (url != "" && key.length == 32) PROFILE_PIC_URL_KEY (Value.str url)
      PROFILE_PIC_KEY_KEY (Value.bytes key) s.document.fields
  { s with document := { s.document with fields := newFields }, needs_dump := true }

/-- Modelled from the spec (`state_get_profile_pic`): yields the pair (url,
key) when both fields are present with the right shape, nothing otherwise. -/
def state_get_profile_pic (s : ConfigState) : Option (String × List Nat) :=
  match docLookup PROFILE_PIC_URL_KEY s.document.fields,
        docLookup PROFILE_PIC_KEY_KEY s.document.fields with
  | some u, some kk =>
      match u.val, kk.val with
      | Value.str us, Value.bytes kb => some (us, kb)
      | _, _ => none
  | _, _ => none

/-! ### Compressor (zstd) -/

/-- Modelled from the spec (`zstd_decompress`): the byte-level zstd frame
format is abstracted as the decode result — `none` models a malformed frame,
`some d` a frame whose decompressed content is `d`.  Returns a failure value
(`none`, never an exception) when the frame is malformed, or when
`max_size > 0` and the decompressed size would exceed `max_size`;
`max_size = 0` imposes no bound. -/
def zstd_decompress (data : Option (List Nat)) (max_size : Nat) : Option (List Nat) :=
  match data with
  | none => none
  | some d => if max_size ≠ 0 ∧ max_size < d.length then none else some d

/-- Modelled from the spec: the load path over a compressed payload — on
decompression failure the state (and so its in-memory document) is returned
unchanged. -/
def loadWithDecompress (s : ConfigState) (data : Option (List Nat)) (max_size : Nat)
    (decodeDoc : List Nat → ConfigDocument) : ConfigState :=
  match zstd_decompress data max_size with
  | none => s
  | some raw => { s with document := decodeDoc raw }

/-! ### The C-boundary string copy (embedded from `internal.hpp`) -/

/-- The modulus of C++ `size_t` arithmetic (2 to the 64th). -/
def SIZE_T_MOD : Nat := 18446744073709551616

/-- Subtraction in `size_t` arithmetic (wraps around on underflow). -/
def sizetSub (a b : Nat) : Nat := (a % SIZE_T_MOD + (SIZE_T_MOD - b % SIZE_T_MOD)) % SIZE_T_MOD

/-- Embedded from `internal.hpp` `copy_c_str`: the length of the string view
after the truncation branch
`if (src.size() >= N) src.remove_suffix(src.size() - N - 1);`,
with both the subtraction computing the suffix length and `remove_suffix`'s
internal length update performed in `size_t` arithmetic. -/
def copy_c_str_len (N srcLen : Nat) : Nat :=
  if N ≤ srcLen then sizetSub srcLen (sizetSub srcLen (N + 1)) else srcLen

/-- Embedded from `internal.hpp` `copy_c_str`: the largest index of `dest`
written — `memcpy` writes indices `0 .. len-1` and then `dest[len] = 0`
writes index `len`. -/
def copy_c_str_maxIndex (N srcLen : Nat) : Nat := copy_c_str_len N srcLen

/-- Embedded from `internal.hpp` `c_wrapper_init_generic`: on a construction
failure the message is resized to at most 255 bytes and copied together with
its null terminator, so the largest index written into the 256-byte error
buffer is `min msgLen 255`. -/
def c_wrapper_error_maxIndex (msgLen : Nat) : Nat := min msgLen 255

/-! ### Order lemmas for the key/hash comparison -/

theorem charsLt_irrefl : ∀ l : List Char, charsLt l l = false
  | [] => rfl
  | a :: as => by simp [charsLt, lt_irrefl, charsLt_irrefl as]

theorem charsLt_asymm : ∀ (l1 l2 : List Char), charsLt l1 l2 = true → charsLt l2 l1 = false
  | [], [], h => by simp [charsLt] at h
  | [], _ :: _, _ => rfl
  | _ :: _, [], h => by simp [charsLt] at h
  | a :: as, b :: bs, h => by
      by_cases hab : a < b
      · simp [charsLt, hab, lt_asymm hab]
      · by_cases hba : b < a
        · simp [charsLt, hab, hba] at h
        · have ih := charsLt_asymm as bs (by simpa [charsLt, hab, hba] using h)
          simp [charsLt, hab, hba, ih]

theorem charsLt_trans : ∀ (l1 l2 l3 : List Char),
    charsLt l1 l2 = true → charsLt l2 l3 = true → charsLt l1 l3 = true
  | _, [], [], _, h2 => by simp [charsLt] at h2
  | _, _ :: _, [], _, h2 => by simp [charsLt] at h2
  | [], [], _ :: _, h1, _ => by simp [charsLt] at h1
  | [], _ :: _, _ :: _, _, _ => rfl
  | _ :: _, [], _ :: _, h1, _ => by simp [charsLt] at h1
  | a :: as, b :: bs, c :: cs, h1, h2 => by
      by_cases hab : a < b
      · by_cases hbc : b < c
        · simp [charsLt, lt_trans hab hbc]
        · by_cases hcb : c < b
          · simp [charsLt, hbc, hcb] at h2
          · have hbc2 : b = c := le_antisymm (not_lt.mp hcb) (not_lt.mp hbc)
            subst hbc2
            simp [charsLt, hab]
      · by_cases hba : b < a
        · simp [charsLt, hab, hba] at h1
        · have hab2 : a = b := le_antisymm (not_lt.mp hba) (not_lt.mp hab)
          subst hab2
          have h1b : charsLt as bs = true := by simpa [charsLt, lt_irrefl] using h1
          by_cases hac : a < c
          · simp [charsLt, hac]
          · by_cases hca : c < a
            · simp [charsLt, hac, hca] at h2
            · have h2b : charsLt bs cs = true := by simpa [charsLt, hac, hca] using h2
              simp [charsLt, hac, hca, charsLt_trans as bs cs h1b h2b]

theorem charsLt_connex : ∀ (l1 l2 : List Char), l1 ≠ l2 →
    charsLt l1 l2 = true ∨ charsLt l2 l1 = true
  | [], [], h => absurd rfl h
  | [], _ :: _, _ => Or.inl rfl
  | _ :: _, [], _ => Or.inr rfl
  | a :: as, b :: bs, h => by
      by_cases hab : a < b
      · exact Or.inl (by simp [charsLt, hab])
      · by_cases hba : b < a
        · exact Or.inr (by simp [charsLt, hba])
        · have hab2 : a = b := le_antisymm (not_lt.mp hba) (not_lt.mp hab)
          subst hab2
          have hne : as ≠ bs := fun hh => h (by rw [hh])
          rcases charsLt_connex as bs hne with h2 | h2
          · exact Or.inl (by simp [charsLt, lt_irrefl, h2])
          · exact Or.inr (by simp [charsLt, lt_irrefl, h2])

theorem string_eq_of_data {a b : String} (h : a.data = b.data) : a = b := by
  cases a; cases b; exact congrArg String.mk h

theorem keyLt_irrefl (a : String) : keyLt a a = false :=
  charsLt_irrefl a.data

theorem keyLt_asymm {a b : String} (h : keyLt a b = true) : keyLt b a = false :=
  charsLt_asymm _ _ h

theorem keyLt_trans {a b c : String} (h1 : keyLt a b = true) (h2 : keyLt b c = true) :
    keyLt a c = true :=
  charsLt_trans _ _ _ h1 h2

theorem keyLt_connex {a b : String} (h : a ≠ b) : keyLt a b = true ∨ keyLt b a = true :=
  charsLt_connex _ _ (fun hd => h (string_eq_of_data hd))

theorem ne_of_keyLt {a b : String} (h : keyLt a b = true) : a ≠ b := by
  intro he
  subst he
  rw [keyLt_irrefl] at h
  exact absurd h (by decide)

/-! ### Merge priority lemmas -/

theorem prioGt_iff {a b : Entry} :
    prioGt a b = true ↔ b.ts < a.ts ∨ (b.ts = a.ts ∧ keyLt b.hash a.hash = true) := by
  simp [prioGt]

theorem prioGt_asymm {a b : Entry} (h : prioGt a b = true) : prioGt b a = false := by
  rw [Bool.eq_false_iff]
  intro h2
  rw [prioGt_iff] at h h2
  rcases h with h | ⟨hts, hlt⟩ <;> rcases h2 with h2 | ⟨hts2, hlt2⟩
  · omega
  · omega
  · omega
  · rw [keyLt_asymm hlt] at hlt2
    exact absurd hlt2 (by decide)

theorem prioGt_total {a b : Entry} (h : prioNe a b) :
    prioGt a b = true ∨ prioGt b a = true := by
  rw [prioGt_iff, prioGt_iff]
  rcases Nat.lt_trichotomy a.ts b.ts with hl | he | hg
  · exact Or.inr (Or.inl hl)
  · have hh : a.hash ≠ b.hash := fun hh => h ⟨he, hh⟩
    rcases keyLt_connex hh with h2 | h2
    · exact Or.inr (Or.inr ⟨he, h2⟩)
    · exact Or.inl (Or.inr ⟨he.symm, h2⟩)
  · exact Or.inl (Or.inl hg)

theorem prioGt_trans {a b c : Entry} (h1 : prioGt a b = true) (h2 : prioGt b c = true) :
    prioGt a c = true := by
  rw [prioGt_iff] at h1 h2 ⊢
  rcases h1 with h1 | ⟨hts1, hlt1⟩ <;> rcases h2 with h2 | ⟨hts2, hlt2⟩
  · exact Or.inl (by omega)
  · exact Or.inl (by omega)
  · exact Or.inl (by omega)
  · exact Or.inr ⟨by omega, keyLt_trans hlt2 hlt1⟩

theorem resolve_swap {e1 e2 : Entry} (h : prioNe e1 e2 ∨ e1 = e2) :
    resolve e2 e1 = resolve e1 e2 := by
  rcases h with h | rfl
  · rcases prioGt_total h with hgt | hgt
    · rw [resolve, resolve, if_pos hgt, if_neg (by rw [prioGt_asymm hgt]; decide)]
    · rw [resolve, resolve, if_neg (by rw [prioGt_asymm hgt]; decide), if_pos hgt]
  · rfl

theorem resolve_resolve_aux {e1 e2 : Entry} (hgt : prioGt e1 e2 = true) (c : Entry) :
    resolve (resolve c e1) e2 = resolve (resolve c e2) e1 := by
  have hngt : prioGt e2 e1 = false := prioGt_asymm hgt
  by_cases h1 : prioGt e1 c = true
  · have ha : resolve c e1 = e1 := by rw [resolve, if_pos h1]
    by_cases h2 : prioGt e2 c = true
    · have hb : resolve c e2 = e2 := by rw [resolve, if_pos h2]
      rw [ha, hb, resolve, if_neg (by rw [hngt]; decide), resolve, if_pos hgt]
    · have hb : resolve c e2 = c := by rw [resolve, if_neg h2]
      rw [ha, hb, resolve, if_neg (by rw [hngt]; decide), resolve, if_pos h1]
  · have ha : resolve c e1 = c := by rw [resolve, if_neg h1]
    by_cases h2 : prioGt e2 c = true
    · exact absurd (prioGt_trans hgt h2) h1
    · have hb : resolve c e2 = c := by rw [resolve, if_neg h2]
      rw [ha, hb, ha]

theorem resolve_resolve {e1 e2 : Entry} (h : prioNe e1 e2 ∨ e1 = e2) (c : Entry) :
    resolve (resolve c e1) e2 = resolve (resolve c e2) e1 := by
  rcases h with h | rfl
  · rcases prioGt_total h with hgt | hgt
    · exact resolve_resolve_aux hgt c
    · exact (resolve_resolve_aux hgt c).symm
  · rfl

/-! ### Commutation of document insertion -/

theorem docInsert_comm_ne_aux {k1 k2 : String} (h12 : keyLt k1 k2 = true) (e1 e2 : Entry) :
    ∀ d, docInsert k1 e1 (docInsert k2 e2 d) = docInsert k2 e2 (docInsert k1 e1 d) := by
  have h21f : keyLt k2 k1 = false := keyLt_asymm h12
  have hk : k1 ≠ k2 := ne_of_keyLt h12
  have hk2 : k2 ≠ k1 := fun he => hk he.symm
  intro d
  induction d with
  | nil => simp [docInsert, h12, h21f, hk, hk2]
  | cons kv rest ih =>
      obtain ⟨kh, eh⟩ := kv
      by_cases hA : keyLt k2 kh = true
      · have hA1 : keyLt k1 kh = true := keyLt_trans h12 hA
        simp [docInsert, hA, hA1, h12, h21f, hk2]
      · rw [Bool.not_eq_true] at hA
        by_cases hB : k2 = kh
        · subst hB
          simp [docInsert, h12, keyLt_irrefl, h21f, hk2, hA]
        · by_cases hCa : keyLt k1 kh = true
          · simp [docInsert, hA, hB, hCa, h12, h21f, hk2]
          · rw [Bool.not_eq_true] at hCa
            by_cases hCb : k1 = kh
            · subst hCb
              simp [docInsert, hA, hB, keyLt_irrefl, h21f, hk2, hCa]
            · simp [docInsert, hA, hB, hCa, hCb, ih]

theorem docInsert_comm_ne {k1 k2 : String} (hk : k1 ≠ k2) (e1 e2 : Entry) (d : List (String × Entry)) :
    docInsert k1 e1 (docInsert k2 e2 d) = docInsert k2 e2 (docInsert k1 e1 d) := by
  rcases keyLt_connex hk with h12 | h21
  · exact docInsert_comm_ne_aux h12 e1 e2 d
  · exact (docInsert_comm_ne_aux h21 e2 e1 d).symm

theorem docInsert_comm_same (k : String) {e1 e2 : Entry} (h : prioNe e1 e2 ∨ e1 = e2) :
    ∀ d, docInsert k e1 (docInsert k e2 d) = docInsert k e2 (docInsert k e1 d) := by
  intro d
  induction d with
  | nil => simp [docInsert, keyLt_irrefl, resolve_swap h]
  | cons kv rest ih =>
      obtain ⟨kh, eh⟩ := kv
      by_cases hL : keyLt k kh = true
      · simp [docInsert, hL, keyLt_irrefl, resolve_swap h]
      · rw [Bool.not_eq_true] at hL
        by_cases hE : k = kh
        · subst hE
          simp [docInsert, hL, keyLt_irrefl, resolve_resolve h eh]
        · simp [docInsert, hL, hE, ih]

theorem mergeField_comm (r : String → Bool) {k1 k2 : String} {e1 e2 : Entry}
    (h : k1 ≠ k2 ∨ (prioNe e1 e2 ∨ e1 = e2)) (d : ConfigDocument) :
    mergeField r k1 e1 (mergeField r k2 e2 d) = mergeField r k2 e2 (mergeField r k1 e1 d) := by
  by_cases hk : k1 = k2
  · subst hk
    have hpe : prioNe e1 e2 ∨ e1 = e2 := by
      rcases h with h | h
      · exact absurd rfl h
      · exact h
    by_cases hr : r k1 = true
    · simp [mergeField, hr, docInsert_comm_same k1 hpe]
    · rw [Bool.not_eq_true] at hr
      simp [mergeField, hr, docInsert_comm_same k1 hpe]
  · by_cases hr1 : r k1 = true <;> by_cases hr2 : r k2 = true <;>
      simp only [Bool.not_eq_true] at hr1 hr2 <;>
      simp [mergeField, hr1, hr2, docInsert_comm_ne hk]

/-! ### Commutation of fragment application -/

theorem applyFrag_cons (r : String → Bool) (ts : Nat) (h : String) (f : String × Value)
    (frag : List (String × Value)) (d : ConfigDocument) :
    applyFrag r ts h (f :: frag) d = applyFrag r ts h frag (mergeField r f.1 ⟨f.2, ts, h⟩ d) :=
  rfl

theorem mergeField_applyFrag_comm (r : String → Bool) {hA hB : String} (hne : hA ≠ hB)
    (k : String) (v : Value) (tsA tsB : Nat) :
    ∀ (fb : List (String × Value)) (d : ConfigDocument),
      mergeField r k ⟨v, tsA, hA⟩ (applyFrag r tsB hB fb d)
        = applyFrag r tsB hB fb (mergeField r k ⟨v, tsA, hA⟩ d)
  | [], _ => rfl
  | g :: gb, d => by
      rw [applyFrag_cons, applyFrag_cons]
      rw [mergeField_applyFrag_comm r hne k v tsA tsB gb]
      rw [mergeField_comm r (Or.inr (Or.inl (fun hp => hne hp.2)))]

theorem applyFrag_comm (r : String → Bool) {hA hB : String} (hne : hA ≠ hB)
    (tsA tsB : Nat) (fb : List (String × Value)) :
    ∀ (fa : List (String × Value)) (d : ConfigDocument),
      applyFrag r tsA hA fa (applyFrag r tsB hB fb d)
        = applyFrag r tsB hB fb (applyFrag r tsA hA fa d)
  | [], _ => rfl
  | f :: fa, d => by
      rw [applyFrag_cons, applyFrag_cons]
      rw [mergeField_applyFrag_comm r hne f.1 f.2 tsA tsB fb d]
      exact applyFrag_comm r hne tsA tsB fb fa (mergeField r f.1 ⟨f.2, tsA, hA⟩ d)

/-! ### Applied-hash set lemmas -/

theorem mem_hinsert (a h : String) : ∀ l, a ∈ hinsert h l ↔ a = h ∨ a ∈ l
  | [] => by simp [hinsert]
  | h2 :: rest => by
      by_cases hE : h = h2
      · subst hE
        simp [hinsert, keyLt_irrefl]
      · by_cases hL : keyLt h h2 = true
        · simp [hinsert, hL]
        · rw [Bool.not_eq_true] at hL
          simp [hinsert, hL, hE, mem_hinsert a h rest]
          tauto

theorem hinsert_comm_aux {a b : String} (h12 : keyLt a b = true) :
    ∀ l, hinsert a (hinsert b l) = hinsert b (hinsert a l) := by
  have h21f : keyLt b a = false := keyLt_asymm h12
  have hk : a ≠ b := ne_of_keyLt h12
  have hk2 : b ≠ a := fun he => hk he.symm
  intro l
  induction l with
  | nil => simp [hinsert, h12, h21f, hk, hk2]
  | cons h2 rest ih =>
      by_cases hA : keyLt b h2 = true
      · have hA1 : keyLt a h2 = true := keyLt_trans h12 hA
        simp [hinsert, hA, hA1, h12, h21f, hk2]
      · rw [Bool.not_eq_true] at hA
        by_cases hB : b = h2
        · subst hB
          simp [hinsert, h12, keyLt_irrefl, h21f, hk2, hA]
        · by_cases hCa : keyLt a h2 = true
          · simp [hinsert, hA, hB, hCa, h12, h21f, hk2]
          · rw [Bool.not_eq_true] at hCa
            by_cases hCb : a = h2
            · subst hCb
              simp [hinsert, hA, hB, keyLt_irrefl, h21f, hk2, hCa]
            · simp [hinsert, hA, hB, hCa, hCb, ih]

theorem hinsert_comm (a b : String) (l : List String) :
    hinsert a (hinsert b l) = hinsert b (hinsert a l) := by
  by_cases hk : a = b
  · subst hk; rfl
  · rcases keyLt_connex hk with h12 | h21
    · exact hinsert_comm_aux h12 l
    · exact (hinsert_comm_aux h21 l).symm

/-! ### Single-message merge lemmas -/

theorem mergeOne_skip_mem (r : String → Bool) (s : ConfigState) (m : ConfigMessage)
    (h : m.hash ∈ s.applied_hashes) : mergeOne r s m = (s, none) := by
  simp [mergeOne, h]

theorem mergeOne_skip_none (r : String → Bool) (s : ConfigState) (m : ConfigMessage)
    (h : m.data = none) : mergeOne r s m = (s, none) := by
  by_cases hm : m.hash ∈ s.applied_hashes
  · simp [mergeOne, hm]
  · simp [mergeOne, hm, h]

theorem mergeOne_apply (r : String → Bool) (s : ConfigState) (m : ConfigMessage)
    (frag : List (String × Value)) (hm : m.hash ∉ s.applied_hashes) (hd : m.data = some frag) :
    mergeOne r s m =
      ({ document := applyFrag r m.timestamp_ms m.hash frag s.document,
         applied_hashes := hinsert m.hash s.applied_hashes,
         needs_dump := true }, some m.hash) := by
  simp [mergeOne, hm, hd]

theorem step_idem (r : String → Bool) (s : ConfigState) (m : ConfigMessage) :
    mergeOne r (step r s m) m = (step r s m, none) := by
  by_cases hm : m.hash ∈ s.applied_hashes
  · rw [step, mergeOne_skip_mem r s m hm, mergeOne_skip_mem r s m hm]
  · cases hd : m.data with
    | none => rw [step, mergeOne_skip_none r s m hd, mergeOne_skip_none r s m hd]
    | some frag =>
        rw [step, mergeOne_apply r s m frag hm hd]
        exact mergeOne_skip_mem r _ m (by simp [mem_hinsert])

theorem step_skip_mem (r : String → Bool) (s : ConfigState) (m : ConfigMessage)
    (h : m.hash ∈ s.applied_hashes) : step r s m = s := by
  rw [step, mergeOne_skip_mem r s m h]

theorem step_skip_none (r : String → Bool) (s : ConfigState) (m : ConfigMessage)
    (h : m.data = none) : step r s m = s := by
  rw [step, mergeOne_skip_none r s m h]

theorem step_apply (r : String → Bool) (s : ConfigState) (m : ConfigMessage)
    (frag : List (String × Value)) (hm : m.hash ∉ s.applied_hashes) (hd : m.data = some frag) :
    step r s m = { document := applyFrag r m.timestamp_ms m.hash frag s.document,
                   applied_hashes := hinsert m.hash s.applied_hashes,
                   needs_dump := true } := by
  rw [step, mergeOne_apply r s m frag hm hd]

theorem applied_step_mono (r : String → Bool) (s : ConfigState) (m : ConfigMessage)
    {a : String} (h : a ∈ s.applied_hashes) : a ∈ (step r s m).applied_hashes := by
  by_cases hm : m.hash ∈ s.applied_hashes
  · rw [step_skip_mem r s m hm]; exact h
  · cases hd : m.data with
    | none => rw [step_skip_none r s m hd]; exact h
    | some frag =>
        rw [step_apply r s m frag hm hd]
        exact (mem_hinsert a m.hash s.applied_hashes).mpr (Or.inr h)

theorem step_comm (r : String → Bool) {A B : ConfigMessage} (hAB : A.hash = B.hash → A = B)
    (s : ConfigState) : step r (step r s A) B = step r (step r s B) A := by
  by_cases hEq : A = B
  · subst hEq; rfl
  · have hne : A.hash ≠ B.hash := fun hh => hEq (hAB hh)
    by_cases hmA : A.hash ∈ s.applied_hashes
    · rw [step_skip_mem r s A hmA]
      exact (step_skip_mem r (step r s B) A (applied_step_mono r s B hmA)).symm
    · cases hdA : A.data with
      | none =>
          rw [step_skip_none r s A hdA]
          exact (step_skip_none r (step r s B) A hdA).symm
      | some fragA =>
          by_cases hmB : B.hash ∈ s.applied_hashes
          · rw [step_skip_mem r s B hmB]
            exact step_skip_mem r (step r s A) B (applied_step_mono r s A hmB)
          · cases hdB : B.data with
            | none =>
                rw [step_skip_none r s B hdB]
                exact step_skip_none r (step r s A) B hdB
            | some fragB =>
                have hmB2 : B.hash ∉ (step r s A).applied_hashes := by
                  rw [step_apply r s A fragA hmA hdA]
                  intro hmem
                  rcases (mem_hinsert B.hash A.hash s.applied_hashes).mp hmem with hh | hh
                  · exact hne hh.symm
                  · exact hmB hh
                have hmA2 : A.hash ∉ (step r s B).applied_hashes := by
                  rw [step_apply r s B fragB hmB hdB]
                  intro hmem
                  rcases (mem_hinsert A.hash B.hash s.applied_hashes).mp hmem with hh | hh
                  · exact hne hh
                  · exact hmA hh
                rw [step_apply r (step r s A) B fragB hmB2 hdB,
                  step_apply r (step r s B) A fragA hmA2 hdA,
                  step_apply r s A fragA hmA hdA, step_apply r s B fragB hmB hdB]
                simp only [ConfigState.mk.injEq]
                refine ⟨?_, hinsert_comm _ _ _, trivial⟩
                exact applyFrag_comm r (fun hh => hne hh.symm) B.timestamp_ms A.timestamp_ms
                  fragA fragB s.document

/-! ### Batch merges and convergence -/

theorem mergeMsgs_fst (r : String → Bool) (s : ConfigState) :
    ∀ l, (mergeMsgs r s l).1 = mergeState r s l
  | [] => rfl
  | m :: rest => by
      simp only [mergeMsgs, mergeState, List.foldl_cons]
      exact mergeMsgs_fst r (step r s m) rest

theorem HashInj.sub {l1 l2 : List ConfigMessage} (h : HashInj l2)
    (hsub : ∀ x ∈ l1, x ∈ l2) : HashInj l1 :=
  fun x hx y hy => h x (hsub x hx) y (hsub y hy)

theorem mergeState_perm (r : String → Bool) (s : ConfigState) {l1 l2 : List ConfigMessage}
    (hinj : HashInj l1) (hp : l1.Perm l2) : mergeState r s l1 = mergeState r s l2 :=
  hp.foldl_eq' (fun x hx y hy z => step_comm r (hinj x hx y hy) z) s

theorem step_step_self (r : String → Bool) (s : ConfigState) (m : ConfigMessage) :
    step r (step r s m) m = step r s m := by
  show (mergeOne r (step r s m) m).1 = step r s m
  rw [step_idem r s m]

theorem mergeState_cons_cons_self (r : String → Bool) (s : ConfigState) (a : ConfigMessage)
    (l : List ConfigMessage) : mergeState r s (a :: a :: l) = mergeState r s (a :: l) := by
  simp only [mergeState, List.foldl_cons, step_step_self]

theorem mergeState_cons_of_mem (r : String → Bool) (s : ConfigState) {a : ConfigMessage}
    {l : List ConfigMessage} (hinj : HashInj (a :: l)) (ha : a ∈ l) :
    mergeState r s (a :: l) = mergeState r s l := by
  obtain ⟨l1, l2, rfl⟩ := List.append_of_mem ha
  have hp1 : (a :: (l1 ++ a :: l2)).Perm (a :: a :: (l1 ++ l2)) :=
    List.Perm.cons a List.perm_middle
  have hinj1 : HashInj (a :: (l1 ++ a :: l2)) := hinj
  rw [mergeState_perm r s hinj1 hp1, mergeState_cons_cons_self]
  have hinj2 : HashInj (a :: (l1 ++ l2)) :=
    hinj1.sub (fun x hx => (hp1.mem_iff).mpr (List.mem_cons_of_mem a hx))
  exact mergeState_perm r s hinj2 List.perm_middle.symm

theorem mergeState_dedup (r : String → Bool) :
    ∀ (l : List ConfigMessage) (s : ConfigState), HashInj l →
      mergeState r s l = mergeState r s l.dedup
  | [], _, _ => rfl
  | a :: l, s, hinj => by
      have hinjl : HashInj l := hinj.sub (fun x hx => List.mem_cons_of_mem a hx)
      by_cases ha : a ∈ l
      · rw [List.dedup_cons_of_mem ha, mergeState_cons_of_mem r s hinj ha]
        exact mergeState_dedup r l s hinjl
      · rw [List.dedup_cons_of_not_mem ha]
        show mergeState r (step r s a) l = mergeState r s (a :: l.dedup)
        exact mergeState_dedup r l (step r s a) hinjl

theorem mergeState_of_same_members (r : String → Bool) (s : ConfigState)
    {l1 l2 : List ConfigMessage} (hinj : HashInj l1)
    (hmem : ∀ m, m ∈ l1 ↔ m ∈ l2) : mergeState r s l1 = mergeState r s l2 := by
  have hinj2 : HashInj l2 := hinj.sub (fun x hx => (hmem x).mpr hx)
  have hinjd : HashInj l1.dedup := hinj.sub (fun x hx => (List.mem_dedup.mp hx))
  have hp : l1.dedup.Perm l2.dedup := by
    rw [List.perm_ext_iff_of_nodup (List.nodup_dedup l1) (List.nodup_dedup l2)]
    intro a
    rw [List.mem_dedup, List.mem_dedup]
    exact hmem a
  rw [mergeState_dedup r l1 s hinj, mergeState_dedup r l2 s hinj2]
  exact mergeState_perm r s hinjd hp

theorem mergeBatches_eq_join (r : String → Bool) :
    ∀ (batches : List (List ConfigMessage)) (s : ConfigState),
      mergeBatches r s batches = mergeState r s batches.flatten
  | [], _ => rfl
  | b :: bs, s => by
      simp only [mergeBatches, List.foldl_cons, List.flatten_cons, mergeState, List.foldl_append]
      rw [mergeMsgs_fst r s b]
      exact mergeBatches_eq_join r bs (mergeState r s b)

/-! ### Lookup lemmas for the local document operations -/

theorem docLookup_docPut_self (k : String) (e : Entry) :
    ∀ l, docLookup k (docPut k e l) = some e
  | [] => by simp [docPut, docLookup]
  | (k2, e2) :: rest => by
      by_cases hL : keyLt k k2 = true
      · simp [docPut, hL, docLookup]
      · rw [Bool.not_eq_true] at hL
        by_cases hE : k = k2
        · subst hE
          simp [docPut, hL, docLookup]
        · simp [docPut, hL, hE, docLookup, docLookup_docPut_self k e rest]

theorem docLookup_docPut_other {k k1 : String} (hk : k1 ≠ k) (e : Entry) :
    ∀ l, docLookup k1 (docPut k e l) = docLookup k1 l
  | [] => by simp [docPut, docLookup, hk]
  | (k2, e2) :: rest => by
      by_cases hL : keyLt k k2 = true
      · simp [docPut, hL, docLookup, hk]
      · rw [Bool.not_eq_true] at hL
        by_cases hE : k = k2
        · subst hE
          simp [docPut, hL, docLookup, hk]
        · simp [docPut, hL, hE, docLookup, docLookup_docPut_other hk e rest]

theorem docLookup_docErase_self (k : String) : ∀ l, docLookup k (docErase k l) = none
  | [] => rfl
  | (k2, e2) :: rest => by
      by_cases hE : k2 = k
      · simp [docErase, hE, docLookup_docErase_self k rest]
      · have hne : k ≠ k2 := fun h => hE h.symm
        simp [docErase, hE, docLookup, hne, docLookup_docErase_self k rest]

theorem docLookup_docErase_other {k k1 : String} (hk : k1 ≠ k) :
    ∀ l, docLookup k1 (docErase k l) = docLookup k1 l
  | [] => rfl
  | (k2, e2) :: rest => by
      by_cases hE : k2 = k
      · subst hE
        have hne : k1 ≠ k2 := hk
        simp [docErase, docLookup, hne, docLookup_docErase_other hk rest]
      · by_cases h12 : k1 = k2
        · simp [docErase, hE, docLookup, h12]
        · simp [docErase, hE, docLookup, h12, docLookup_docErase_other hk rest]

/-! ### Batch merge unfolding -/

theorem mergeMsgs_cons (r : String → Bool) (s : ConfigState) (m : ConfigMessage)
    (rest : List ConfigMessage) :
    mergeMsgs r s (m :: rest)
      = ((mergeMsgs r (mergeOne r s m).1 rest).1,
         (mergeOne r s m).2.toList ++ (mergeMsgs r (mergeOne r s m).1 rest).2) := rfl

theorem mergeMsgs_skip (r : String → Bool) (m : ConfigMessage) (hm : m.data = none) :
    ∀ (pre : List ConfigMessage) (s : ConfigState) (post : List ConfigMessage),
      mergeMsgs r s (pre ++ m :: post) = mergeMsgs r s (pre ++ post)
  | [], s, post => by
      simp only [List.nil_append, mergeMsgs_cons, mergeOne_skip_none r s m hm]
      simp
  | p :: pre, s, post => by
      simp only [List.cons_append, mergeMsgs_cons]
      rw [mergeMsgs_skip r m hm pre (mergeOne r s p).1 post]

/-! ### Claim C2 — idempotent merge -/

/-- Claim C2: merging a message whose hash is already in `applied_hashes` leaves
the state unchanged and accepts nothing; and merging the same message a second
time leaves the state (hence the document) unchanged and returns no newly
accepted hash — the same hash is never applied twice to a `ConfigState`. -/
theorem merge_idempotent (r : String → Bool) (s : ConfigState) (m : ConfigMessage) :
    (m.hash ∈ s.applied_hashes → mergeOne r s m = (s, none)) ∧
    mergeMsgs r (mergeMsgs r s [m]).1 [m] = ((mergeMsgs r s [m]).1, []) := by
  refine ⟨mergeOne_skip_mem r s m, ?_⟩
  have h1 : (mergeMsgs r s [m]).1 = step r s m := mergeMsgs_fst r s [m]
  rw [h1]
  simp [mergeMsgs, step_idem r s m]

/-- Witness for C2 at a concrete state and message. -/
theorem merge_idempotent_witness :
    mergeOne (fun _ => true)
        { document := { fields := [], unknown := [] }, applied_hashes := ["h1"],
          needs_dump := false }
        { hash := "h1", timestamp_ms := 5, data := some [("n", Value.str "x")] }
      = ({ document := { fields := [], unknown := [] }, applied_hashes := ["h1"],
           needs_dump := false }, none) ∧
    mergeMsgs (fun _ => true)
        (mergeMsgs (fun _ => true) freshState
          [{ hash := "h1", timestamp_ms := 5, data := some [("n", Value.str "x")] }]).1
        [{ hash := "h1", timestamp_ms := 5, data := some [("n", Value.str "x")] }]
      = ((mergeMsgs (fun _ => true) freshState
          [{ hash := "h1", timestamp_ms := 5, data := some [("n", Value.str "x")] }]).1,
         []) := by
  have h1 := merge_idempotent (fun _ => true)
    { document := { fields := [], unknown := [] }, applied_hashes := ["h1"],
      needs_dump := false }
    { hash := "h1", timestamp_ms := 5, data := some [("n", Value.str "x")] }
  have h2 := merge_idempotent (fun _ => true) freshState
    { hash := "h1", timestamp_ms := 5, data := some [("n", Value.str "x")] }
  exact ⟨h1.1 (by decide), h2.2⟩

/-! ### Claim C8 — undecodable messages are skipped -/

/-- Claim C8: a message whose payload fails to decode is skipped: it is not
applied (the state, hence document and `applied_hashes`, is unchanged and no
hash is returned), and its presence anywhere in a batch does not change the
batch result — there is no batch-level error (the merge result carries none). -/
theorem merge_skips_undecodable (r : String → Bool) (s : ConfigState) (m : ConfigMessage)
    (hm : m.data = none) :
    mergeOne r s m = (s, none) ∧
    ∀ pre post, mergeMsgs r s (pre ++ m :: post) = mergeMsgs r s (pre ++ post) :=
  ⟨mergeOne_skip_none r s m hm, fun pre post => mergeMsgs_skip r m hm pre s post⟩

/-- Witness for C8: a concrete undecodable message inside a batch. -/
theorem merge_skips_undecodable_witness :
    mergeOne (fun _ => true) freshState { hash := "bad", timestamp_ms := 9, data := none }
      = (freshState, none) ∧
    mergeMsgs (fun _ => true) freshState
        ([{ hash := "g", timestamp_ms := 1, data := some [("n", Value.str "y")] }] ++
          { hash := "bad", timestamp_ms := 9, data := none } ::
            [{ hash := "g2", timestamp_ms := 2, data := some [("n", Value.str "z")] }])
      = mergeMsgs (fun _ => true) freshState
          ([{ hash := "g", timestamp_ms := 1, data := some [("n", Value.str "y")] }] ++
            [{ hash := "g2", timestamp_ms := 2, data := some [("n", Value.str "z")] }]) := by
  have h := merge_skips_undecodable (fun _ => true) freshState
    { hash := "bad", timestamp_ms := 9, data := none } rfl
  exact ⟨h.1, h.2 [{ hash := "g", timestamp_ms := 1, data := some [("n", Value.str "y")] }]
    [{ hash := "g2", timestamp_ms := 2, data := some [("n", Value.str "z")] }]⟩

/-! ### Claim C6 — tri-state accessor -/

/-- Claim C6: the tri-state blinded-message-requests flag reads -1 after fresh
construction; after setting any positive value it reads 1, after setting 0 it
reads 0, and after clearing (any negative value) it reads -1 again. -/
theorem blinded_msgreqs_tristate (s : ConfigState) (n : Int) :
    state_get_profile_blinded_msgreqs freshState = -1 ∧
    state_get_profile_blinded_msgreqs (state_set_profile_blinded_msgreqs s n)
      = (if n < 0 then -1 else if n = 0 then 0 else 1) := by
  refine ⟨rfl, ?_⟩
  by_cases hneg : n < 0
  · simp [state_set_profile_blinded_msgreqs, hneg, localErase,
      state_get_profile_blinded_msgreqs, docLookup_docErase_self]
  · by_cases hz : n = 0
    · subst hz
      simp [state_set_profile_blinded_msgreqs, localPut,
        state_get_profile_blinded_msgreqs, docLookup_docPut_self]
    · have hpos : 0 < n := by omega
      simp [state_set_profile_blinded_msgreqs, hneg, hz, hpos, localPut,
        state_get_profile_blinded_msgreqs, docLookup_docPut_self]

/-! ### Claim C10 — paired fields are set or erased together -/

/-- Claim C10: after `set_pair_if`, the two fields are either both present with
the supplied values (condition true) or both absent (condition false): it is
never the case that exactly one of the two is present. -/
theorem set_pair_if_both_or_neither (cond : Bool) (k1 : String) (v1 : Value) (k2 : String)
    (v2 : Value) (f : List (String × Entry)) (hk : k1 ≠ k2) :
    ((docLookup k1 (set_pair_if cond k1 v1 k2 v2 f)).isSome
        = (docLookup k2 (set_pair_if cond k1 v1 k2 v2 f)).isSome) ∧
    (cond = true →
      docLookup k1 (set_pair_if cond k1 v1 k2 v2 f) = some ⟨v1, 0, ""⟩ ∧
      docLookup k2 (set_pair_if cond k1 v1 k2 v2 f) = some ⟨v2, 0, ""⟩) ∧
    (cond = false →
      docLookup k1 (set_pair_if cond k1 v1 k2 v2 f) = none ∧
      docLookup k2 (set_pair_if cond k1 v1 k2 v2 f) = none) := by
  have hk2 : k2 ≠ k1 := fun h => hk h.symm
  cases cond
  · have e1 : docLookup k1 (docErase k2 (docErase k1 f)) = none := by
      rw [docLookup_docErase_other hk, docLookup_docErase_self]
    have e2 : docLookup k2 (docErase k2 (docErase k1 f)) = none :=
      docLookup_docErase_self k2 _
    refine ⟨?_, ?_, ?_⟩ <;> simp [set_pair_if, e1, e2]
  · have e1 : docLookup k1 (docPut k2 ⟨v2, 0, ""⟩ (docPut k1 ⟨v1, 0, ""⟩ f))
        = some ⟨v1, 0, ""⟩ := by
      rw [docLookup_docPut_other hk, docLookup_docPut_self]
    have e2 : docLookup k2 (docPut k2 ⟨v2, 0, ""⟩ (docPut k1 ⟨v1, 0, ""⟩ f))
        = some ⟨v2, 0, ""⟩ :=
      docLookup_docPut_self k2 _ _
    refine ⟨?_, ?_, ?_⟩ <;> simp [set_pair_if, e1, e2]

/-- Witness for C10 at the profile-picture keys. -/
theorem set_pair_if_both_or_neither_witness :
    docLookup "p" (set_pair_if true "p" (Value.str "u") "q" (Value.bytes [1]) [])
      = some ⟨Value.str "u", 0, ""⟩ ∧
    docLookup "q" (set_pair_if false "p" (Value.str "u") "q" (Value.bytes [1]) []) = none := by
  have h1 := set_pair_if_both_or_neither true "p" (Value.str "u") "q" (Value.bytes [1]) []
    (by decide)
  have h2 := set_pair_if_both_or_neither false "p" (Value.str "u") "q" (Value.bytes [1]) []
    (by decide)
  exact ⟨(h1.2.1 rfl).1, (h2.2.2 rfl).2⟩

/-! ### Claim C9 — the C-boundary string copy overruns its buffer -/

/-- Claim C9 (code bug): `copy_c_str` is meant to truncate the source so that at
most `N-1` characters plus the terminator are stored within indices `0..N-1`;
but after `src.remove_suffix(src.size() - N - 1)` the view still holds `N+1`
characters, so for the 256-byte error buffer and a 300-byte message the
function writes up to index 257 — past the end of the buffer.  By contrast the
inline error copy of `c_wrapper_init_generic` stays within index 255 for every
message length. -/
theorem copy_c_str_overflow :
    copy_c_str_maxIndex 256 300 = 257 ∧
    ¬ copy_c_str_maxIndex 256 300 ≤ 255 ∧
    (∀ msgLen : Nat, c_wrapper_error_maxIndex msgLen ≤ 255) := by
  refine ⟨by decide, by decide, ?_⟩
  intro msgLen
  simp [c_wrapper_error_maxIndex]

/-! ### Claim C7 — bounded decompression -/

/-- Claim C7: decompression returns a failure value (`none`, not an exception)
whenever the decoded size would exceed a non-zero `max_size`; a `max_size` of
0 imposes no bound; and a failed decompression leaves the in-memory document
unchanged (the load path returns the state untouched). -/
theorem zstd_decompress_bounded (data : Option (List Nat)) (d : List Nat) (max_size : Nat) :
    (data = some d → max_size ≠ 0 → max_size < d.length →
        zstd_decompress data max_size = none) ∧
    zstd_decompress data 0 = data ∧
    (∀ (s : ConfigState) (decodeDoc : List Nat → ConfigDocument),
        zstd_decompress data max_size = none →
        loadWithDecompress s data max_size decodeDoc = s) := by
  refine ⟨?_, ?_, ?_⟩
  · intro hd hnz hgt
    subst hd
    simp [zstd_decompress, hnz, hgt]
  · cases data <;> simp [zstd_decompress]
  · intro s dec hfail
    simp [loadWithDecompress, hfail]

/-- Witness for C7: a payload whose decompressed size is 10 MB against a 1 MB
bound fails, and the load path leaves the state unchanged. -/
theorem zstd_decompress_bounded_witness :
    zstd_decompress (some (List.replicate 10485760 0)) 1048576 = none ∧
    loadWithDecompress freshState (some (List.replicate 10485760 0)) 1048576
        (fun _ => { fields := [], unknown := [] }) = freshState := by
  have h := zstd_decompress_bounded (some (List.replicate 10485760 0))
    (List.replicate 10485760 0) 1048576
  have hfail := h.1 rfl (by decide) (by rw [List.length_replicate]; omega)
  exact ⟨hfail, h.2.2 freshState _ hfail⟩

/-! ### Claim C1 — commutativity and convergence -/

/-- Claim C1: two states that observe the same full set of messages — in any
order and any batching — end with identical documents; in particular merging
the batch `[A, B]` and the batch `[B, A]` produces the same resulting
document.  (`HashInj` is the data model's assumption that `hash` is an opaque
content identifier: two messages with the same hash are the same message.) -/
theorem merge_convergence (r : String → Bool) (s : ConfigState)
    (batches1 batches2 : List (List ConfigMessage))
    (hinj : HashInj batches1.flatten)
    (hmem : ∀ m, m ∈ batches1.flatten ↔ m ∈ batches2.flatten) :
    (mergeBatches r s batches1).document = (mergeBatches r s batches2).document := by
  rw [mergeBatches_eq_join r batches1 s, mergeBatches_eq_join r batches2 s]
  rw [mergeState_of_same_members r s hinj hmem]

/-- Witness for C1: the batch `[A, B]` against the two batches `[B]` then
`[A]` (different order and different batching). -/
theorem merge_convergence_witness :
    (mergeBatches (fun key => key == "n") freshState
        [[{ hash := "h1", timestamp_ms := 100, data := some [("n", Value.str "alice")] },
          { hash := "h2", timestamp_ms := 50, data := some [("n", Value.str "bob")] }]]).document
      = (mergeBatches (fun key => key == "n") freshState
          [[{ hash := "h2", timestamp_ms := 50, data := some [("n", Value.str "bob")] }],
           [{ hash := "h1", timestamp_ms := 100,
              data := some [("n", Value.str "alice")] }]]).document := by
  refine merge_convergence (fun key => key == "n") freshState _ _
    (by unfold HashInj; decide) ?_
  intro m
  simp only [List.flatten_cons, List.flatten_nil, List.append_nil, List.mem_append,
    List.mem_cons, List.not_mem_nil, or_false]
  tauto

/-! ### Claim C3 — last-writer-wins per field -/

theorem docLookup_none_of_forall_lt {k : String} :
    ∀ {l : List (String × Entry)}, (∀ kv ∈ l, keyLt k kv.1 = true) → docLookup k l = none
  | [], _ => rfl
  | (k2, e2) :: rest, h => by
      have hlt := h (k2, e2) (List.mem_cons_self _ _)
      have hne : k ≠ k2 := ne_of_keyLt hlt
      simp only [docLookup, hne, if_false]
      exact docLookup_none_of_forall_lt (fun kv hkv => h kv (List.mem_cons_of_mem _ hkv))

theorem docLookup_docInsert_self {k : String} (enew : Entry) :
    ∀ {l : List (String × Entry)} {e : Entry},
      List.Pairwise (fun a b => keyLt a.1 b.1 = true) l →
      docLookup k l = some e →
      docLookup k (docInsert k enew l) = some (resolve e enew)
  | [], e, _, hl => by simp [docLookup] at hl
  | (k2, e2) :: rest, e, hp, hl => by
      obtain ⟨hhead, hrest⟩ := List.pairwise_cons.mp hp
      by_cases hE : k = k2
      · subst hE
        have he : e2 = e := by simpa [docLookup] using hl
        subst he
        simp [docInsert, keyLt_irrefl, docLookup]
      · have hl2 : docLookup k rest = some e := by simpa [docLookup, hE] using hl
        by_cases hL : keyLt k k2 = true
        · exfalso
          have hnone : docLookup k rest = none :=
            docLookup_none_of_forall_lt (fun kv hkv => keyLt_trans hL (hhead kv hkv))
          rw [hnone] at hl2
          cases hl2
        · rw [Bool.not_eq_true] at hL
          simp only [docInsert, hL, hE, if_false, Bool.false_eq_true, docLookup]
          exact docLookup_docInsert_self enew hrest hl2

/-- Claim C3: for a field present in both the document and an incoming message,
merge keeps the value with the higher merge priority — the merged entry is
exactly `resolve` of the current entry and the incoming one (higher
`timestamp_ms` wins, ties broken lexicographically on `hash`); and in the
concrete scenario, merging hash "h2"/ts 50 setting the name to "bob" after
hash "h1"/ts 100 set it to "alice" leaves the profile name "alice". -/
theorem merge_lww (r : String → Bool) (s : ConfigState) (m : ConfigMessage)
    (k : String) (v : Value) (e : Entry)
    (hsf : List.Pairwise (fun a b => keyLt a.1 b.1 = true) s.document.fields)
    (hsu : List.Pairwise (fun a b => keyLt a.1 b.1 = true) s.document.unknown)
    (hd : m.data = some [(k, v)])
    (hm : m.hash ∉ s.applied_hashes)
    (hcur : docGet r k s.document = some e) :
    docGet r k (step r s m).document = some (resolve e ⟨v, m.timestamp_ms, m.hash⟩) ∧
    state_get_profile_name (fun key => key == "n")
        (mergeState (fun key => key == "n")
          (mergeState (fun key => key == "n") freshState
            [{ hash := "h1", timestamp_ms := 100, data := some [("n", Value.str "alice")] }])
          [{ hash := "h2", timestamp_ms := 50, data := some [("n", Value.str "bob")] }])
      = some "alice" := by
  constructor
  · rw [step_apply r s m [(k, v)] hm hd]
    show docGet r k (mergeField r k ⟨v, m.timestamp_ms, m.hash⟩ s.document)
      = some (resolve e ⟨v, m.timestamp_ms, m.hash⟩)
    by_cases hr : r k = true
    · have hcur2 : docLookup k s.document.fields = some e := by
        simpa [docGet, hr] using hcur
      simp only [docGet, mergeField, hr, if_true]
      exact docLookup_docInsert_self _ hsf hcur2
    · rw [Bool.not_eq_true] at hr
      have hcur2 : docLookup k s.document.unknown = some e := by
        simpa [docGet, hr] using hcur
      simp only [docGet, mergeField, hr, if_false, Bool.false_eq_true]
      exact docLookup_docInsert_self _ hsu hcur2
  · decide

/-- Witness for C3: the older-timestamp message does not override the field. -/
theorem merge_lww_witness :
    docGet (fun key => key == "n") "n"
        (step (fun key => key == "n")
          { document := { fields := [("n", ⟨Value.str "alice", 100, "h1"⟩)], unknown := [] },
            applied_hashes := ["h1"], needs_dump := true }
          { hash := "h2", timestamp_ms := 50, data := some [("n", Value.str "bob")] }).document
      = some ⟨Value.str "alice", 100, "h1"⟩ := by
  have h := merge_lww (fun key => key == "n")
    { document := { fields := [("n", ⟨Value.str "alice", 100, "h1"⟩)], unknown := [] },
      applied_hashes := ["h1"], needs_dump := true }
    { hash := "h2", timestamp_ms := 50, data := some [("n", Value.str "bob")] }
    "n" (Value.str "bob") ⟨Value.str "alice", 100, "h1"⟩
    (by simp) (by simp) rfl (by decide) (by decide)
  have h2 := h.1
  rw [h2]
  decide

/-! ### Claim C5 — dirty-flag contract -/

theorem needs_dump_mergeMsgs (r : String → Bool) :
    ∀ (l : List ConfigMessage) (s : ConfigState),
      (mergeMsgs r s l).1.needs_dump = (s.needs_dump || !(mergeMsgs r s l).2.isEmpty)
  | [], s => by simp [mergeMsgs]
  | m :: rest, s => by
      rw [mergeMsgs_cons]
      by_cases hm : m.hash ∈ s.applied_hashes
      · simp [mergeOne_skip_mem r s m hm, needs_dump_mergeMsgs r rest s]
      · cases hd : m.data with
        | none => simp [mergeOne_skip_none r s m hd, needs_dump_mergeMsgs r rest s]
        | some frag =>
            rw [mergeOne_apply r s m frag hm hd]
            simp [needs_dump_mergeMsgs r rest _]

theorem lookupState_clearFlags (ns : Nat) (acct : String)
    (f : ((Nat × String) × ConfigState) → Bool) :
    ∀ (states : List ((Nat × String) × ConfigState)) (st : ConfigState),
      lookupState ns acct states = some st → f ((ns, acct), st) = true →
      lookupState ns acct (clearFlags f states) = some { st with needs_dump := false }
  | [], st, hl, _ => by simp [lookupState] at hl
  | ((pn, pa), pst) :: rest, st, hl, hf => by
      by_cases hc : (pn == ns && pa == acct) = true
      · have hst : pst = st := by simpa [lookupState, hc] using hl
        obtain ⟨hn, ha⟩ : pn = ns ∧ pa = acct := by
          simpa [Bool.and_eq_true, beq_iff_eq] using hc
        subst hst hn ha
        simp [clearFlags, lookupState, hf]
      · have hl2 : lookupState ns acct rest = some st := by
          simpa [lookupState, hc] using hl
        have ih := lookupState_clearFlags ns acct f rest st hl2 hf
        by_cases hfp : f ((pn, pa), pst) = true <;>
          simp [clearFlags, lookupState, hfp, hc] <;>
          simpa [clearFlags] using ih

/-- Claim C5: `needs_dump` is false immediately after a dump — both the
state-level dump, the namespace dump and the full-store dump that includes the
state — and none of them touches `applied_hashes`; and any merge that accepts
at least one hash leaves `needs_dump` true. -/
theorem dirty_flag_contract (store : StateStore) (ns : Nat) (acct : String)
    (st : ConfigState) (full : Bool) (r : String → Bool) (s : ConfigState)
    (msgs : List ConfigMessage) :
    ((stateDump s).2.needs_dump = false ∧
      (stateDump s).2.applied_hashes = s.applied_hashes) ∧
    (storeGet ns acct store = some st →
      storeGet ns acct (state_dump_namespace ns acct store).2
        = some { st with needs_dump := false }) ∧
    (storeGet ns acct store = some st → (full || st.needs_dump) = true →
      storeGet ns acct (state_dump full store).2
        = some { st with needs_dump := false }) ∧
    ((mergeMsgs r s msgs).2 ≠ [] → (mergeMsgs r s msgs).1.needs_dump = true) := by
  refine ⟨⟨rfl, rfl⟩, ?_, ?_, ?_⟩
  · intro hget
    exact lookupState_clearFlags ns acct _ store.states st hget (by simp)
  · intro hget hfull
    exact lookupState_clearFlags ns acct _ store.states st hget hfull
  · intro hne
    rw [needs_dump_mergeMsgs r msgs s]
    cases hacc : (mergeMsgs r s msgs).2 with
    | nil => exact absurd hacc hne
    | cons a l => simp

/-- Witness for C5 on a one-state store and a one-message merge. -/
theorem dirty_flag_contract_witness :
    (storeGet 2 "acct"
        (state_dump_namespace 2 "acct"
          { states := [((2, "acct"),
              { document := { fields := [], unknown := [] }, applied_hashes := ["h0"],
                needs_dump := true })] }).2
      = some { document := { fields := [], unknown := [] }, applied_hashes := ["h0"],
               needs_dump := false }) ∧
    (storeGet 2 "acct"
        (state_dump false
          { states := [((2, "acct"),
              { document := { fields := [], unknown := [] }, applied_hashes := ["h0"],
                needs_dump := true })] }).2
      = some { document := { fields := [], unknown := [] }, applied_hashes := ["h0"],
               needs_dump := false }) ∧
    (mergeMsgs (fun _ => true) freshState
        [{ hash := "h1", timestamp_ms := 7, data := some [("n", Value.str "x")] }]).1.needs_dump
      = true := by
  have h := dirty_flag_contract
    { states := [((2, "acct"),
        { document := { fields := [], unknown := [] }, applied_hashes := ["h0"],
          needs_dump := true })] }
    2 "acct"
    { document := { fields := [], unknown := [] }, applied_hashes := ["h0"],
      needs_dump := true }
    false (fun _ => true) freshState
    [{ hash := "h1", timestamp_ms := 7, data := some [("n", Value.str "x")] }]
  exact ⟨h.2.1 (by decide), h.2.2.1 (by decide) (by decide), h.2.2.2 (by decide)⟩

/-! ### Claim C4 — dump/load round trip and unknown-field survival -/

theorem docPut_prepend {k : String} (e : Entry) :
    ∀ {l : List (String × Entry)}, (∀ kv ∈ l, keyLt k kv.1 = true) →
      docPut k e l = (k, e) :: l
  | [], _ => rfl
  | (k2, e2) :: rest, h => by
      have hlt := h (k2, e2) (List.mem_cons_self _ _)
      simp [docPut, hlt]

theorem docPut_append {k : String} (e : Entry) :
    ∀ {l : List (String × Entry)}, (∀ kv ∈ l, keyLt kv.1 k = true) →
      docPut k e l = l ++ [(k, e)]
  | [], _ => rfl
  | (k2, e2) :: rest, h => by
      have hlt := h (k2, e2) (List.mem_cons_self _ _)
      have hL : keyLt k k2 = false := keyLt_asymm hlt
      have hE : k ≠ k2 := fun he => (ne_of_keyLt hlt) he.symm
      simp only [docPut, hL, hE, if_false, Bool.false_eq_true, List.cons_append,
        List.cons.injEq, true_and]
      exact docPut_append e (fun kv hkv => h kv (List.mem_cons_of_mem _ hkv))

theorem docPut_mem_key {k : String} (e : Entry) :
    ∀ {l : List (String × Entry)} {kv : String × Entry},
      kv ∈ docPut k e l → kv.1 = k ∨ kv ∈ l
  | [], kv, h => by
      simp [docPut] at h
      exact Or.inl (by rw [h])
  | (k2, e2) :: rest, kv, h => by
      by_cases hL : keyLt k k2 = true
      · simp only [docPut, hL, if_true, List.mem_cons] at h
        rcases h with h | h
        · exact Or.inl (by rw [h])
        · exact Or.inr (by simpa [List.mem_cons] using h)
      · rw [Bool.not_eq_true] at hL
        by_cases hE : k = k2
        · subst hE
          have hd : docPut k e ((k, e2) :: rest) = (k, e) :: rest := by
            simp [docPut, hL]
          rw [hd] at h
          rcases List.mem_cons.mp h with h1 | h1
          · exact Or.inl (by rw [h1])
          · exact Or.inr (List.mem_cons_of_mem _ h1)
        · have hd : docPut k e ((k2, e2) :: rest) = (k2, e2) :: docPut k e rest := by
            simp [docPut, hL, hE]
          rw [hd] at h
          rcases List.mem_cons.mp h with h1 | h1
          · exact Or.inr (by simp [h1])
          · rcases docPut_mem_key e h1 with h2 | h2
            · exact Or.inl h2
            · exact Or.inr (List.mem_cons_of_mem _ h2)

theorem docPut_sorted {k : String} (e : Entry) :
    ∀ {l : List (String × Entry)},
      List.Pairwise (fun a b => keyLt a.1 b.1 = true) l →
      List.Pairwise (fun a b => keyLt a.1 b.1 = true) (docPut k e l)
  | [], _ => by simp [docPut]
  | (k2, e2) :: rest, hp => by
      obtain ⟨hhead, hrest⟩ := List.pairwise_cons.mp hp
      by_cases hL : keyLt k k2 = true
      · simp only [docPut, hL, if_true]
        refine List.pairwise_cons.mpr ⟨?_, hp⟩
        intro kv hkv
        rcases List.mem_cons.mp hkv with h1 | h1
        · rw [h1]; exact hL
        · exact keyLt_trans hL (hhead kv h1)
      · rw [Bool.not_eq_true] at hL
        by_cases hE : k = k2
        · subst hE
          simp only [docPut, hL, if_pos rfl, Bool.false_eq_true, if_false]
          exact List.pairwise_cons.mpr ⟨hhead, hrest⟩
        · have hGt : keyLt k2 k = true := by
            rcases keyLt_connex hE with h | h
            · rw [h] at hL; cases hL
            · exact h
          simp only [docPut, hL, hE, if_false, Bool.false_eq_true]
          refine List.pairwise_cons.mpr ⟨?_, docPut_sorted e hrest⟩
          intro kv hkv
          rcases docPut_mem_key e hkv with h1 | h1
          · rw [h1]; exact hGt
          · exact hhead kv h1

theorem filter_docPut_not (r : String → Bool) {k : String} (hk : r k = false) (e : Entry) :
    ∀ l, (docPut k e l).filter (fun kv => r kv.1) = l.filter (fun kv => r kv.1)
  | [] => by simp [docPut, hk]
  | (k2, e2) :: rest => by
      by_cases hL : keyLt k k2 = true
      · simp [docPut, hL, hk]
      · rw [Bool.not_eq_true] at hL
        by_cases hE : k = k2
        · subst hE
          simp [docPut, hL, hk]
        · simp only [docPut, hL, hE, if_false, Bool.false_eq_true, List.filter_cons]
          rw [filter_docPut_not r hk e rest]

theorem filter_docPut_comm (r : String → Bool) {k : String} (hk : r k = false) (e : Entry) :
    ∀ {l : List (String × Entry)},
      List.Pairwise (fun a b => keyLt a.1 b.1 = true) l →
      (docPut k e l).filter (fun kv => !r kv.1)
        = docPut k e (l.filter (fun kv => !r kv.1))
  | [], _ => by simp [docPut, hk]
  | (k2, e2) :: rest, hp => by
      obtain ⟨hhead, hrest⟩ := List.pairwise_cons.mp hp
      by_cases hL : keyLt k k2 = true
      · have hall : ∀ kv ∈ List.filter (fun kv => !r kv.1) ((k2, e2) :: rest),
            keyLt k kv.1 = true := by
          intro kv hkv
          have hmem := List.mem_of_mem_filter hkv
          rcases List.mem_cons.mp hmem with h1 | h1
          · rw [h1]; exact hL
          · exact keyLt_trans hL (hhead kv h1)
        rw [docPut_prepend e hall]
        simp [docPut, hL, hk]
      · rw [Bool.not_eq_true] at hL
        by_cases hE : k = k2
        · subst hE
          simp [docPut, hL, hk, List.filter_cons]
        · have hd : docPut k e ((k2, e2) :: rest) = (k2, e2) :: docPut k e rest := by
            simp [docPut, hL, hE]
          by_cases hr2 : r k2 = true
          · rw [hd, List.filter_cons, List.filter_cons]
            simp only [hr2, Bool.not_true, Bool.false_eq_true, if_false]
            exact filter_docPut_comm r hk e hrest
          · rw [Bool.not_eq_true] at hr2
            rw [hd, List.filter_cons, List.filter_cons]
            simp only [hr2, Bool.not_false, if_true]
            have hd2 : docPut k e ((k2, e2) :: List.filter (fun kv => !r kv.1) rest)
                = (k2, e2) :: docPut k e (List.filter (fun kv => !r kv.1) rest) := by
              simp [docPut, hL, hE]
            rw [hd2, filter_docPut_comm r hk e hrest]

theorem foldPut_append :
    ∀ (u : List (String × Entry)) (acc : List (String × Entry)),
      List.Pairwise (fun a b => keyLt a.1 b.1 = true) u →
      (∀ a ∈ acc, ∀ b ∈ u, keyLt a.1 b.1 = true) →
      u.foldl (fun acc kv => docPut kv.1 kv.2 acc) acc = acc ++ u
  | [], acc, _, _ => by simp
  | kv :: us, acc, hp, hacc => by
      obtain ⟨hhead, hrest⟩ := List.pairwise_cons.mp hp
      simp only [List.foldl_cons]
      have h1 : docPut kv.1 kv.2 acc = acc ++ [kv] := by
        rw [docPut_append kv.2 (fun a ha => hacc a ha kv (List.mem_cons_self _ _))]
      rw [h1]
      rw [foldPut_append us (acc ++ [kv]) hrest ?_]
      · simp
      · intro a ha b hb
        rcases List.mem_append.mp ha with h2 | h2
        · exact hacc a h2 b (List.mem_cons_of_mem _ hb)
        · have : a = kv := by simpa using h2
          rw [this]
          exact hhead b hb

/-- The round-trip core: loading the dumped flat sequence reproduces the
document, field for field, including the unknown bucket. -/
theorem loadDoc_dumpDoc {r : String → Bool} {d : ConfigDocument} (hwf : DocWF r d) :
    loadDoc r (dumpDoc d) = d := by
  obtain ⟨hsf, hsu, hf, hu⟩ := hwf
  have hfields : (dumpDoc d).filter (fun kv => r kv.1) = d.fields := by
    have hgen : ∀ (u : List (String × Entry)), (∀ kv ∈ u, r kv.1 = false) →
        ∀ acc, (u.foldl (fun acc kv => docPut kv.1 kv.2 acc) acc).filter (fun kv => r kv.1)
          = acc.filter (fun kv => r kv.1) := by
      intro u
      induction u with
      | nil => intro _ acc; rfl
      | cons kv us ih =>
          intro hu2 acc
          simp only [List.foldl_cons]
          rw [ih (fun x hx => hu2 x (List.mem_cons_of_mem _ hx)) (docPut kv.1 kv.2 acc)]
          exact filter_docPut_not r (hu2 kv (List.mem_cons_self _ _)) kv.2 acc
    rw [dumpDoc, hgen d.unknown hu d.fields]
    exact List.filter_eq_self.mpr (fun kv hkv => by simp [hf kv hkv])
  have hunknown : (dumpDoc d).filter (fun kv => !r kv.1) = d.unknown := by
    have hgen : ∀ (u : List (String × Entry)), (∀ kv ∈ u, r kv.1 = false) →
        ∀ acc, List.Pairwise (fun a b => keyLt a.1 b.1 = true) acc →
        (u.foldl (fun acc kv => docPut kv.1 kv.2 acc) acc).filter (fun kv => !r kv.1)
          = u.foldl (fun acc kv => docPut kv.1 kv.2 acc) (acc.filter (fun kv => !r kv.1)) := by
      intro u
      induction u with
      | nil => intro _ acc _; rfl
      | cons kv us ih =>
          intro hu2 acc hap
          simp only [List.foldl_cons]
          rw [ih (fun x hx => hu2 x (List.mem_cons_of_mem _ hx)) (docPut kv.1 kv.2 acc)
            (docPut_sorted kv.2 hap)]
          rw [filter_docPut_comm r (hu2 kv (List.mem_cons_self _ _)) kv.2 hap]
    rw [dumpDoc, hgen d.unknown hu d.fields hsf]
    have hnil : d.fields.filter (fun kv => !r kv.1) = [] := by
      rw [List.filter_eq_nil_iff]
      intro kv hkv
      simp [hf kv hkv]
    rw [hnil]
    rw [foldPut_append d.unknown [] hsu (by simp)]
    simp
  rw [loadDoc, hfields, hunknown]

theorem docInsert_mem_key {k : String} (e : Entry) :
    ∀ {l : List (String × Entry)} {kv : String × Entry},
      kv ∈ docInsert k e l → kv.1 = k ∨ kv ∈ l
  | [], kv, h => by
      simp [docInsert] at h
      exact Or.inl (by rw [h])
  | (k2, e2) :: rest, kv, h => by
      by_cases hL : keyLt k k2 = true
      · simp only [docInsert, hL, if_true, List.mem_cons] at h
        rcases h with h | h
        · exact Or.inl (by rw [h])
        · exact Or.inr (by simpa [List.mem_cons] using h)
      · rw [Bool.not_eq_true] at hL
        by_cases hE : k = k2
        · subst hE
          have hd : docInsert k e ((k, e2) :: rest) = (k, resolve e2 e) :: rest := by
            simp [docInsert, hL]
          rw [hd] at h
          rcases List.mem_cons.mp h with h1 | h1
          · exact Or.inl (by rw [h1])
          · exact Or.inr (List.mem_cons_of_mem _ h1)
        · have hd : docInsert k e ((k2, e2) :: rest) = (k2, e2) :: docInsert k e rest := by
            simp [docInsert, hL, hE]
          rw [hd] at h
          rcases List.mem_cons.mp h with h1 | h1
          · exact Or.inr (by simp [h1])
          · rcases docInsert_mem_key e h1 with h2 | h2
            · exact Or.inl h2
            · exact Or.inr (List.mem_cons_of_mem _ h2)

theorem docInsert_sorted {k : String} (e : Entry) :
    ∀ {l : List (String × Entry)},
      List.Pairwise (fun a b => keyLt a.1 b.1 = true) l →
      List.Pairwise (fun a b => keyLt a.1 b.1 = true) (docInsert k e l)
  | [], _ => by simp [docInsert]
  | (k2, e2) :: rest, hp => by
      obtain ⟨hhead, hrest⟩ := List.pairwise_cons.mp hp
      by_cases hL : keyLt k k2 = true
      · simp only [docInsert, hL, if_true]
        refine List.pairwise_cons.mpr ⟨?_, hp⟩
        intro kv hkv
        rcases List.mem_cons.mp hkv with h1 | h1
        · rw [h1]; exact hL
        · exact keyLt_trans hL (hhead kv h1)
      · rw [Bool.not_eq_true] at hL
        by_cases hE : k = k2
        · subst hE
          have hd : docInsert k e ((k, e2) :: rest) = (k, resolve e2 e) :: rest := by
            simp [docInsert, hL]
          rw [hd]
          exact List.pairwise_cons.mpr ⟨hhead, hrest⟩
        · have hGt : keyLt k2 k = true := by
            rcases keyLt_connex hE with h | h
            · rw [h] at hL; cases hL
            · exact h
          have hd : docInsert k e ((k2, e2) :: rest) = (k2, e2) :: docInsert k e rest := by
            simp [docInsert, hL, hE]
          rw [hd]
          refine List.pairwise_cons.mpr ⟨?_, docInsert_sorted e hrest⟩
          intro kv hkv
          rcases docInsert_mem_key e hkv with h1 | h1
          · rw [h1]; exact hGt
          · exact hhead kv h1

theorem docLookup_docInsert_other {k k1 : String} (hk : k1 ≠ k) (e : Entry) :
    ∀ l, docLookup k1 (docInsert k e l) = docLookup k1 l
  | [] => by simp [docInsert, docLookup, hk]
  | (k2, e2) :: rest => by
      by_cases hL : keyLt k k2 = true
      · simp [docInsert, hL, docLookup, hk]
      · rw [Bool.not_eq_true] at hL
        by_cases hE : k = k2
        · subst hE
          simp [docInsert, hL, docLookup, hk]
        · simp [docInsert, hL, hE, docLookup, docLookup_docInsert_other hk e rest]

/-- The document invariant is preserved by a single field merge. -/
theorem mergeField_wf (r : String → Bool) (k : String) (e : Entry) {d : ConfigDocument}
    (hwf : DocWF r d) : DocWF r (mergeField r k e d) := by
  obtain ⟨hsf, hsu, hf, hu⟩ := hwf
  by_cases hr : r k = true
  · refine ⟨?_, ?_, ?_, ?_⟩ <;> simp only [mergeField, hr, if_true]
    · exact docInsert_sorted e hsf
    · exact hsu
    · intro kv hkv
      rcases docInsert_mem_key e hkv with h1 | h1
      · rw [h1]; exact hr
      · exact hf kv h1
    · exact hu
  · rw [Bool.not_eq_true] at hr
    refine ⟨?_, ?_, ?_, ?_⟩ <;>
      simp only [mergeField, hr, Bool.false_eq_true, if_false]
    · exact hsf
    · exact docInsert_sorted e hsu
    · exact hf
    · intro kv hkv
      rcases docInsert_mem_key e hkv with h1 | h1
      · rw [h1]; exact hr
      · exact hu kv h1

theorem applyFrag_wf (r : String → Bool) (ts : Nat) (h : String) :
    ∀ (frag : List (String × Value)) {d : ConfigDocument},
      DocWF r d → DocWF r (applyFrag r ts h frag d)
  | [], _, hwf => hwf
  | f :: fs, d, hwf => by
      rw [applyFrag_cons]
      exact applyFrag_wf r ts h fs (mergeField_wf r f.1 ⟨f.2, ts, h⟩ hwf)

theorem step_wf (r : String → Bool) (s : ConfigState) (m : ConfigMessage)
    (hwf : DocWF r s.document) : DocWF r (step r s m).document := by
  by_cases hm : m.hash ∈ s.applied_hashes
  · rw [step_skip_mem r s m hm]; exact hwf
  · cases hd : m.data with
    | none => rw [step_skip_none r s m hd]; exact hwf
    | some frag =>
        rw [step_apply r s m frag hm hd]
        exact applyFrag_wf r m.timestamp_ms m.hash frag hwf

theorem mergeState_wf (r : String → Bool) :
    ∀ (msgs : List ConfigMessage) (s : ConfigState),
      DocWF r s.document → DocWF r (mergeState r s msgs).document
  | [], _, hwf => hwf
  | m :: rest, s, hwf => by
      show DocWF r (mergeState r (step r s m) rest).document
      exact mergeState_wf r rest (step r s m) (step_wf r s m hwf)

/-- A merge that never touches key `k` leaves the unknown-bucket entry for `k`
unchanged. -/
theorem unknown_lookup_applyFrag (r : String → Bool) (ts : Nat) (h : String) {k : String} :
    ∀ (frag : List (String × Value)) (d : ConfigDocument),
      (∀ f ∈ frag, f.1 ≠ k) →
      docLookup k (applyFrag r ts h frag d).unknown = docLookup k d.unknown
  | [], _, _ => rfl
  | f :: fs, d, hf => by
      rw [applyFrag_cons]
      rw [unknown_lookup_applyFrag r ts h fs _
        (fun x hx => hf x (List.mem_cons_of_mem _ hx))]
      have hne : k ≠ f.1 := fun he => (hf f (List.mem_cons_self _ _)) he.symm
      by_cases hr : r f.1 = true
      · simp [mergeField, hr]
      · rw [Bool.not_eq_true] at hr
        simp [mergeField, hr, docLookup_docInsert_other hne]

theorem unknown_lookup_step (r : String → Bool) {k : String} (s : ConfigState)
    (m : ConfigMessage)
    (havoid : ∀ frag, m.data = some frag → ∀ f ∈ frag, f.1 ≠ k) :
    docLookup k (step r s m).document.unknown = docLookup k s.document.unknown := by
  by_cases hm : m.hash ∈ s.applied_hashes
  · rw [step_skip_mem r s m hm]
  · cases hd : m.data with
    | none => rw [step_skip_none r s m hd]
    | some frag =>
        rw [step_apply r s m frag hm hd]
        exact unknown_lookup_applyFrag r m.timestamp_ms m.hash frag s.document (havoid frag hd)

theorem unknown_lookup_mergeState (r : String → Bool) {k : String} :
    ∀ (msgs : List ConfigMessage) (s : ConfigState),
      (∀ m ∈ msgs, ∀ frag, m.data = some frag → ∀ f ∈ frag, f.1 ≠ k) →
      docLookup k (mergeState r s msgs).document.unknown = docLookup k s.document.unknown
  | [], _, _ => rfl
  | m :: rest, s, havoid => by
      show docLookup k (mergeState r (step r s m) rest).document.unknown = _
      rw [unknown_lookup_mergeState r rest (step r s m)
        (fun x hx => havoid x (List.mem_cons_of_mem _ hx))]
      exact unknown_lookup_step r s m (havoid m (List.mem_cons_self _ _))

/-- Claim C4: loading the bytes produced by `dump` reproduces the document field
for field, including the unknown bucket; and an unknown key present in a
loaded dump survives a later merge/dump/load cycle unchanged as long as no
merged message carries that field name. -/
theorem dump_load_roundtrip (r : String → Bool) (d : ConfigDocument) (s : ConfigState)
    (msgs : List ConfigMessage) (k : String)
    (hwf : DocWF r d) (hswf : DocWF r s.document)
    (havoid : ∀ m ∈ msgs, ∀ frag, m.data = some frag → ∀ f ∈ frag, f.1 ≠ k) :
    loadDoc r (dumpDoc d) = d ∧
    docLookup k (loadDoc r (dumpDoc (mergeState r s msgs).document)).unknown
      = docLookup k s.document.unknown := by
  refine ⟨loadDoc_dumpDoc hwf, ?_⟩
  rw [loadDoc_dumpDoc (mergeState_wf r msgs s hswf)]
  exact unknown_lookup_mergeState r msgs s havoid

/-- Witness for C4: a document with one recognized and one unknown field
round-trips, and the unknown field survives a merge of a message touching a
different field. -/
theorem dump_load_roundtrip_witness :
    loadDoc (fun key => key == "n")
        (dumpDoc { fields := [("n", ⟨Value.str "alice", 100, "h1"⟩)],
                   unknown := [("z", ⟨Value.int 7, 3, "h0"⟩)] })
      = { fields := [("n", ⟨Value.str "alice", 100, "h1"⟩)],
          unknown := [("z", ⟨Value.int 7, 3, "h0"⟩)] } ∧
    docLookup "z"
        (loadDoc (fun key => key == "n")
          (dumpDoc (mergeState (fun key => key == "n")
            { document := { fields := [("n", ⟨Value.str "alice", 100, "h1"⟩)],
                            unknown := [("z", ⟨Value.int 7, 3, "h0"⟩)] },
              applied_hashes := ["h1"], needs_dump := false }
            [{ hash := "h2", timestamp_ms := 200,
               data := some [("n", Value.str "carol")] }]).document)).unknown
      = docLookup "z"
          [("z", ⟨Value.int 7, 3, "h0"⟩)] := by
  have h := dump_load_roundtrip (fun key => key == "n")
    { fields := [("n", ⟨Value.str "alice", 100, "h1"⟩)],
      unknown := [("z", ⟨Value.int 7, 3, "h0"⟩)] }
    { document := { fields := [("n", ⟨Value.str "alice", 100, "h1"⟩)],
                    unknown := [("z", ⟨Value.int 7, 3, "h0"⟩)] },
      applied_hashes := ["h1"], needs_dump := false }
    [{ hash := "h2", timestamp_ms := 200, data := some [("n", Value.str "carol")] }]
    "z"
    (by refine ⟨?_, ?_, ?_, ?_⟩ <;> simp)
    (by refine ⟨?_, ?_, ?_, ?_⟩ <;> simp)
    (by intro m hm frag hfrag f hf
        simp only [List.mem_singleton] at hm
        subst hm
        simp only [Option.some.injEq] at hfrag
        subst hfrag
        simp only [List.mem_singleton] at hf
        subst hf
        decide)
  exact ⟨h.1, h.2⟩

end SessionState
